import Mathlib

/-!
Verification of the ghp repository-analysis tool against its specification.

The Go source is shallowly embedded: pure helper functions become Lean
functions over `String` / `List Char` / `Int` / `ℚ`; Go `float64`
arithmetic is embedded as exact rational arithmetic; Go's fallible
operations (string slicing, JSON decoding, cache reads) return
`Option` / `Except` / explicit result types.  Filesystem state for the
TTL cache is an explicit map from paths to (modification time, content).
-/

namespace GHP

/-! ## String helpers (embeddings of Go strings / path/filepath functions) -/

/-- Embedding of Go `strings.HasPrefix(s, pre)` via character lists. -/
def goStartsWith (s pre : String) : Bool :=
  pre.data.isPrefixOf s.data

/-- Embedding of Go `strings.HasSuffix(s, suf)` via character lists. -/
def goEndsWith (s suf : String) : Bool :=
  suf.data.isSuffixOf s.data

/-- Helper for `goContains`: does `needle` occur as a prefix of some suffix? -/
def containsAux (needle : List Char) : List Char → Bool
  | [] => needle.isPrefixOf []
  | c :: rest => needle.isPrefixOf (c :: rest) || containsAux needle rest

/-- Embedding of Go `strings.Contains(hay, needle)`. -/
def goContains (hay needle : String) : Bool :=
  containsAux needle.data hay.data

/-- ASCII lower-casing of one character, as Go `strings.ToLower` acts on
ASCII letters (the paths and keywords in this program are ASCII). -/
def goCharToLower (c : Char) : Char :=
  if 'A' ≤ c ∧ c ≤ 'Z' then Char.ofNat (c.toNat + 32) else c

/-- Embedding of Go `strings.ToLower` (ASCII fragment). -/
def goToLower (s : String) : String :=
  String.mk (s.data.map goCharToLower)

/-- Helper for `goExt`: scan the reversed character list for the final dot of
the final path element, accumulating the suffix seen so far. -/
def extAux : List Char → List Char → Option String
  | [], _ => none
  | c :: rest, acc =>
    if c = '.' then some (String.mk ('.' :: acc))
    else if c = '/' then none
    else extAux rest (c :: acc)

/-- Embedding of Go `filepath.Ext(p)`: the suffix beginning at the final dot
in the final slash-separated element of the path, `""` if there is none. -/
def goExt (p : String) : String :=
  (extAux p.data.reverse []).getD ""

/-! ## File scoring (`scorePath` in prompt.go) -/

/-- The extension `switch` inside `scorePath` (prompt.go): the score bonus
attached to a `filepath.Ext` result. -/
def extBonus (ext : String) : Int :=
  if ext = ".go" ∨ ext = ".py" ∨ ext = ".ts" ∨ ext = ".js" ∨ ext = ".java" ∨
     ext = ".rs" ∨ ext = ".swift" ∨ ext = ".kt" ∨ ext = ".kts" ∨ ext = ".rb" ∨
     ext = ".ex" ∨ ext = ".exs" ∨ ext = ".cs" ∨ ext = ".cpp" ∨ ext = ".c" ∨
     ext = ".h" ∨ ext = ".hpp" then 50
  else if ext = ".sh" ∨ ext = ".sql" then 20
  else if ext = ".yml" ∨ ext = ".yaml" ∨ ext = ".json" ∨ ext = ".toml" ∨
     ext = ".hcl" ∨ ext = "dockerfile" ∨ ext = ".tf" then 5
  else if ext = ".md" ∨ ext = ".txt" ∨ ext = ".html" ∨ ext = ".css" then 2
  else 0

/-- Embedding of `scorePath` (prompt.go), preserving the order of the
early returns exactly. -/
def scorePath (p : String) : Int :=
  let l := goToLower p
  if goContains l "/vendor/" || goContains l "/node_modules/" ||
     goContains l "/.git/" || goContains l "/build/" || goContains l "/dist/" then 0
  else if goStartsWith l "gen/" || goStartsWith l "docs/" || goContains l "example" then 1
  else if goEndsWith l ".png" || goEndsWith l ".jpg" || goEndsWith l ".zip" ||
     goEndsWith l ".pdf" || goEndsWith l ".svg" then 0
  else
    let base : Int := 10
    let s1 := if goStartsWith l "internal/" || goStartsWith l "pkg/" ||
                 goStartsWith l "src/" || goStartsWith l "lib/" then base + 20 else base
    let s2 := if goStartsWith l "cmd/" then s1 + 15 else s1
    let s3 := s2 + extBonus (goExt l)
    let s4 := if goEndsWith l "_test.go" || goContains l ".test." ||
                 goContains l ".spec." then s3 - 5 else s3
    if goEndsWith l ".lock" || goEndsWith l "go.sum" then 1 else s4

/-! ## File selection (`pickPaths` in prompt.go) -/

/-- A path together with its heuristic score, mirroring the local
`scoredPath` struct of `pickPaths`. -/
structure ScoredPath where
  path : String
  score : Int
deriving DecidableEq, Repr

/-- The descending-score order used by the `slices.SortFunc` call in
`pickPaths` (comparator `b.Score - a.Score`). -/
def spOrder (a b : ScoredPath) : Prop := b.score ≤ a.score

instance : DecidableRel spOrder := fun a b => inferInstanceAs (Decidable (b.score ≤ a.score))

instance : IsTotal ScoredPath spOrder := ⟨fun a b => le_total b.score a.score⟩

instance : IsTrans ScoredPath spOrder := ⟨fun _ _ _ h1 h2 => le_trans h2 h1⟩

/-- The output loop of `pickPaths`: append each path, breaking as soon as the
output length reaches `ChunksPerRepo`.  `c` is the length accumulated so
far; the break test happens after each append, exactly as in the source. -/
def pickLoop (limit : Int) : List ScoredPath → Int → List String
  | [], _ => []
  | sp :: rest, c =>
    sp.path :: (if limit ≤ c + 1 then [] else pickLoop limit rest (c + 1))

/-- Embedding of `pickPaths` (prompt.go): score each entry, keep strictly
positive scores, sort descending by score, then emit through the
append-then-check loop.  `slices.SortFunc` only guarantees a sorted
permutation; the embedding fixes insertion sort as the deterministic
witness of that contract. -/
def pickPaths (entries : List String) (chunksPerRepo : Int) : List String :=
  let scored := (entries.map (fun p => ScoredPath.mk p (scorePath p))).filter
    (fun sp => decide (0 < sp.score))
  pickLoop chunksPerRepo (List.insertionSort spOrder scored) 0

/-! ## Commit-SHA logging step of `evaluateRepo` (prompt.go) -/

/-- Go string slicing `s[:n]`: defined only when `n` is at most the length,
otherwise the program panics (modelled as `none`). -/
def goStringSliceTo (s : String) (n : Nat) : Option String :=
  if n ≤ s.data.length then some (String.mk (s.data.take n)) else none

/-- The beginning of `evaluateRepo`: `GetLatestCommitSHA` either succeeds
with a SHA string or fails, in which case it returns the zero value `""`
alongside the error and `evaluateRepo` merely logs a warning.  Either way
the very next statement formats `sha[:7]`.  The result is the formatted
prefix, or `none` for a runtime panic that kills the process. -/
def evaluateRepoShaStage : Except String String → Option String
  | Except.error _ => goStringSliceTo "" 7
  | Except.ok sha => goStringSliceTo sha 7

/-! ## Per-repository aggregation (`evaluateRepo` in prompt.go) -/

/-- The six numeric sub-scores of a `ChunkScore` (types.go); the notes and
citations are handled separately. -/
structure ChunkScore where
  readability : Int
  design : Int
  testing : Int
  maintain : Int
  idiomatic : Int
  security : Int
deriving DecidableEq, Repr

/-- `total := Readability + Design + Testing + Maintain + Idiomatic + Security`. -/
def chunkTotal (sc : ChunkScore) : Int :=
  sc.readability + sc.design + sc.testing + sc.maintain + sc.idiomatic + sc.security

/-- The per-chunk weight of `evaluateRepo`: start at 1.0, add 0.1 when the
lowercased path contains "test", add 0.2 when it starts with "cmd/" or
contains "/internal/".  Go `float64` arithmetic is embedded exactly in ℚ. -/
def chunkWeight (path : String) : ℚ :=
  let p := goToLower path
  let w1 : ℚ := 1
  let w2 := if goContains p "test" then w1 + 1/10 else w1
  if goStartsWith p "cmd/" || goContains p "/internal/" then w2 + 2/10 else w2

/-- One iteration of the aggregation loop of `evaluateRepo`: a chunk whose
six sub-scores total zero is skipped, otherwise it contributes
`(total/30) * weight` to `sum` and `weight` to `cnt`. -/
def scoreAccum (acc : ℚ × ℚ) (pr : ChunkScore × String) : ℚ × ℚ :=
  if chunkTotal pr.1 = 0 then acc
  else (acc.1 + ((chunkTotal pr.1 : ℚ) / 30) * chunkWeight pr.2,
        acc.2 + chunkWeight pr.2)

/-- Go's `int(x)` conversion from `float64`: truncation toward zero. -/
def goTrunc (q : ℚ) : Int := if 0 ≤ q then ⌊q⌋ else ⌈q⌉

/-- Embedding of `clamp` (prompt.go). -/
def clamp (v lo hi : Int) : Int :=
  if v < lo then lo else if v > hi then hi else v

/-- The final score computation of `evaluateRepo`: fold the aggregation loop
over the scored chunks (score paired with its chunk's path), then
`clamp(int((sum/cnt)*100), 0, 100)` when `cnt > 0`, else 0. -/
def repoScore (prs : List (ChunkScore × String)) : Int :=
  let acc := prs.foldl scoreAccum (0, 0)
  if 0 < acc.2 then clamp (goTrunc (acc.1 / acc.2 * 100)) 0 100 else 0

/-- Chunks that take part in the average: those with non-zero total. -/
def effChunks (prs : List (ChunkScore × String)) : List (ChunkScore × String) :=
  prs.filter (fun pr => decide (chunkTotal pr.1 ≠ 0))

/-- The numerator of the spec's weighted-average fraction. -/
def weightedNum (prs : List (ChunkScore × String)) : ℚ :=
  ((effChunks prs).map (fun pr => ((chunkTotal pr.1 : ℚ) / 30) * chunkWeight pr.2)).sum

/-- The denominator of the spec's weighted-average fraction. -/
def weightSum (prs : List (ChunkScore × String)) : ℚ :=
  ((effChunks prs).map (fun pr => chunkWeight pr.2)).sum

/-! ## Strength/risk keyword classification (`evaluateRepo` in prompt.go) -/

/-- The positive-keyword test of the notes `switch` (first case). -/
def noteIsPositive (ln : String) : Bool :=
  goContains ln "well-structured" || goContains ln "idiomatic" || goContains ln "tested"

/-- The negative-keyword test of the notes `switch` (second case). -/
def noteIsNegative (ln : String) : Bool :=
  goContains ln "missing tests" || goContains ln "long function" ||
  goContains ln "globals" || goContains ln "security" || goContains ln "concurrency"

/-- One iteration of the notes loop: Go's `switch` tries the positive case
first, so a note matching a positive keyword never reaches the risk case;
each list is capped at 3 entries. -/
def classifyStep (acc : List String × List String) (n : String) : List String × List String :=
  let ln := goToLower n
  if noteIsPositive ln then
    (if acc.1.length < 3 then acc.1 ++ [n] else acc.1, acc.2)
  else if noteIsNegative ln then
    (acc.1, if acc.2.length < 3 then acc.2 ++ [n] else acc.2)
  else acc

/-- The full notes pass of an evaluation run: fold over all notes starting
from empty strengths/risks. -/
def classifyNotes (notes : List String) : List String × List String :=
  notes.foldl classifyStep ([], [])

/-! ## Per-call LLM retry loop (`evalOne` and `extractJSON` in prompt.go) -/

/-- Embedding of `extractJSON`: the substring from the first `'\x7b'` to the
last `'\x7d'`, and an error when either brace is missing or the last
closing brace does not lie strictly after the first opening brace. -/
def strFirstIdx (s : String) (c : Char) : Option Nat :=
  s.data.findIdx? (fun x => x = c)

/-- Index of the last occurrence of `c` in `s`, scanning left to right and
keeping the best index seen, like `strings.LastIndexByte`. -/
def strLastIdxAux (c : Char) : List Char → Nat → Option Nat → Option Nat
  | [], _, best => best
  | x :: rest, i, best => strLastIdxAux c rest (i + 1) (if x = c then some i else best)

def strLastIdx (s : String) (c : Char) : Option Nat :=
  strLastIdxAux c s.data 0 none

def extractJSON (s : String) : Option String :=
  match strFirstIdx s '{', strLastIdx s '}' with
  | some st, some en =>
    if en ≤ st then none else some (String.mk ((s.data.drop st).take (en + 1 - st)))
  | _, _ => none

/-- One observed result of `c.sdk.Chat.Completions.New`: either a
transport-level failure with its message, or a successful HTTP response
carrying the list of choice texts. -/
inductive LLMResp where
  | terr : String → LLMResp
  | resp : List String → LLMResp
deriving DecidableEq, Repr

/-- The exit status of `evalOne`. -/
inductive EvalOutcome where
  | ok : EvalOutcome
  | emptyCompletion : EvalOutcome
  | parseFail : EvalOutcome
  | parseFail2 : EvalOutcome
  | transport : String → EvalOutcome
deriving DecidableEq, Repr

/-- The observable trace of one `evalOne` call: its outcome, the back-off
sleeps performed (milliseconds, in order), and how many SDK calls it made. -/
structure EvalTrace where
  outcome : EvalOutcome
  sleeps : List Nat
  calls : Nat
deriving DecidableEq, Repr

/-- The retry loop of `evalOne`.  `oracle j` is the transport's answer to the
(0-based) attempt `j`; `parse s` is whether `json.Unmarshal` accepts `s`
for the expected output shape.  `remaining` counts the loop iterations
left (`3 - attempt`); `lastMsg` threads Go's `lastErr`. -/
def evalOneFrom (oracle : Nat → LLMResp) (parse : String → Bool) :
    Nat → Nat → String → EvalTrace
  | 0, _, lastMsg => ⟨EvalOutcome.transport lastMsg, [], 0⟩
  | r + 1, attempt, _ =>
    match oracle attempt with
    | LLMResp.terr msg =>
      let rest := evalOneFrom oracle parse r (attempt + 1) msg
      ⟨rest.outcome, 300 * (attempt + 1) :: rest.sleeps, rest.calls + 1⟩
    | LLMResp.resp [] => ⟨EvalOutcome.emptyCompletion, [], 1⟩
    | LLMResp.resp (txt :: _) =>
      if parse txt then ⟨EvalOutcome.ok, [], 1⟩
      else
        match extractJSON txt with
        | none => ⟨EvalOutcome.parseFail, [], 1⟩
        | some js =>
          if parse js then ⟨EvalOutcome.ok, [], 1⟩ else ⟨EvalOutcome.parseFail2, [], 1⟩

/-- Embedding of `evalOne` (prompt.go): up to 3 attempts starting at 0 with
an empty `lastErr`. -/
def evalOne (oracle : Nat → LLMResp) (parse : String → Bool) : EvalTrace :=
  evalOneFrom oracle parse 3 0 ""

/-! ## String-or-object decoding (`ArchStrength` / `ArchConsideration`
`UnmarshalJSON` in types.go) -/

/-- The JSON shapes relevant to the variant decoders: a string, an object
(field list), `null`, and anything else (numbers, arrays, booleans). -/
inductive JVal where
  | jstr : String → JVal
  | jobj : List (String × JVal) → JVal
  | jnull : JVal
  | jother : JVal

/-- Go object field lookup: `encoding/json` lets a later duplicate key win,
so the lookup takes the last binding. -/
def jLookupLast (fields : List (String × JVal)) (k : String) : Option JVal :=
  (fields.reverse.find? (fun e => e.1 == k)).map (fun e => e.2)

/-- Decoding one string field of an object: an absent field or a `null`
leaves the Go zero value `""`; a present string decodes to itself; any
other shape is a type error. -/
def decodeStringField (fields : List (String × JVal)) (k : String) : Except String String :=
  match jLookupLast fields k with
  | none => Except.ok ""
  | some (JVal.jstr s) => Except.ok s
  | some JVal.jnull => Except.ok ""
  | some _ => Except.error "cannot unmarshal into string field"

structure ArchStrength where
  point : String
  justification : String
deriving DecidableEq, Repr

structure ArchConsideration where
  point : String
  justification : String
  severity : String
deriving DecidableEq, Repr

/-- Embedding of `ArchStrength.UnmarshalJSON`: try the bare-string form
first (also succeeding on `null`, which Go unmarshals into a string as a
no-op), then fall back to the object form through the `Alias` type. -/
def archStrengthDecode : JVal → Except String ArchStrength
  | JVal.jstr s => Except.ok ⟨s, ""⟩
  | JVal.jnull => Except.ok ⟨"", ""⟩
  | JVal.jobj fields =>
    match decodeStringField fields "point", decodeStringField fields "justification" with
    | Except.ok p, Except.ok j => Except.ok ⟨p, j⟩
    | Except.error e, _ => Except.error e
    | _, Except.error e => Except.error e
  | JVal.jother => Except.error "cannot unmarshal"

/-- Embedding of `ArchConsideration.UnmarshalJSON`: the bare-string form
sets `Point` and defaults `Severity` to "Low"; the object form decodes
the three fields as given (an absent severity stays `""`). -/
def archConsiderationDecode : JVal → Except String ArchConsideration
  | JVal.jstr s => Except.ok ⟨s, "", "Low"⟩
  | JVal.jnull => Except.ok ⟨"", "", "Low"⟩
  | JVal.jobj fields =>
    match decodeStringField fields "point", decodeStringField fields "justification",
          decodeStringField fields "severity" with
    | Except.ok p, Except.ok j, Except.ok sv => Except.ok ⟨p, j, sv⟩
    | Except.error e, _, _ => Except.error e
    | _, Except.error e, _ => Except.error e
    | _, _, Except.error e => Except.error e
  | JVal.jother => Except.error "cannot unmarshal"

/-! ## TTL disk cache (`readCache` / `writeCache` in github.go) -/

/-- One cached file: its modification time and serialized content. -/
structure CacheEntry where
  modTime : Int
  content : String
deriving DecidableEq, Repr

/-- The filesystem under the cache root: a map from paths to entries. -/
def FileSys : Type := String → Option CacheEntry

/-- The three observable outcomes of `readCache`: `(false, nil)`,
`(true, nil)` with the decoded value, and `(false, err)`. -/
inductive CacheReadResult (α : Type) where
  | miss : CacheReadResult α
  | hit : α → CacheReadResult α
  | fail : String → CacheReadResult α
deriving DecidableEq, Repr

/-- Embedding of `readCache` (github.go): an absent path is a miss without
error; an entry whose age `now - modTime` exceeds `ttl` is a miss; an
entry that fails to deserialize is an error; otherwise a hit.  `dec` is
`json.Unmarshal` specialized to the target type. -/
def readCache {α : Type} (fs : FileSys) (now : Int) (path : String) (ttl : Int)
    (dec : String → Option α) : CacheReadResult α :=
  match fs path with
  | none => CacheReadResult.miss
  | some entry =>
    if ttl < now - entry.modTime then CacheReadResult.miss
    else
      match dec entry.content with
      | none => CacheReadResult.fail "json unmarshal"
      | some v => CacheReadResult.hit v

/-- Embedding of `writeCache` (github.go): serialize with `enc`
(`json.Marshal`) and store at `path` with the current time as the
modification time. -/
def writeCache {α : Type} (fs : FileSys) (now : Int) (path : String)
    (enc : α → String) (v : α) : FileSys :=
  fun p => if p = path then some ⟨now, enc v⟩ else fs p

/-! ## Repository discovery (`DiscoverUserRepos` in github.go)

The embedding covers the merge/rank logic after the GraphQL query (the
cache fast path is the cache component above).  Go's `map` is modelled as
an association list in insertion order; `range` over a Go map has
unspecified order, and the embedding fixes insertion order as the
deterministic witness (the output contract sorts that list anyway). -/

/-- The repository node of the combined GraphQL query. -/
structure RepoGraphQL where
  nameWithOwner : String
  defaultBranch : String
  stars : Int
  isFork : Bool
  ownerLogin : String
  repoName : String
  language : String
deriving DecidableEq, Repr

/-- `RepoTarget` (types.go). -/
structure RepoTarget where
  owner : String
  repoName : String
  defaultBranch : String
  stars : Int
  pinned : Bool
  language : String
deriving DecidableEq, Repr

/-- The Go zero value of `RepoTarget`, produced by indexing a map with an
absent key. -/
def goZeroTarget : RepoTarget := ⟨"", "", "", 0, false, ""⟩

/-- `discoverOptions` (github.go). -/
structure DiscoverOptions where
  limit : Int
  includePinned : Bool
  includeNonPinned : Bool
  excludeForks : Bool
deriving DecidableEq, Repr

/-- `repoGraphQLToTarget` (github.go). -/
def repoGraphQLToTarget (r : RepoGraphQL) (pinned : Bool) : RepoTarget :=
  ⟨r.ownerLogin, r.repoName, r.defaultBranch, r.stars, pinned, r.language⟩

/-- The deduplication map keyed by "owner/name", in insertion order. -/
abbrev RepoMap : Type := List (String × RepoTarget)

/-- Go map read `m[k]` as an option. -/
def assocGet (m : RepoMap) (k : String) : Option RepoTarget :=
  (List.find? (fun e => e.1 == k) m).map (fun e => e.2)

/-- Go map write `m[k] = v`: replace in place, or append a fresh binding. -/
def assocSet (m : RepoMap) (k : String) (v : RepoTarget) : RepoMap :=
  match m with
  | [] => [(k, v)]
  | e :: rest => if e.1 == k then (k, v) :: rest else e :: assocSet rest k v

/-- Go `delete(m, k)`. -/
def assocDelete (m : RepoMap) (k : String) : RepoMap :=
  List.filter (fun e => !(e.1 == k)) m

/-- One iteration of the pinned loop of `DiscoverUserRepos`: skip empty
names and excluded forks, write the surviving node into the map and
record its key in `pinnedOrder`. -/
def pinnedStep (opt : DiscoverOptions) (acc : RepoMap × List String)
    (r : RepoGraphQL) : RepoMap × List String :=
  if r.nameWithOwner == "" then acc
  else if opt.excludeForks && r.isFork then acc
  else (assocSet acc.1 r.nameWithOwner (repoGraphQLToTarget r true),
        acc.2 ++ [r.nameWithOwner])

/-- The pinned loop of `DiscoverUserRepos`. -/
def pinnedPhase (opt : DiscoverOptions) (pinned : List RepoGraphQL) : RepoMap × List String :=
  if opt.includePinned then pinned.foldl (pinnedStep opt) ([], []) else ([], [])

/-- One iteration of the non-pinned loop of `DiscoverUserRepos`: skip empty
names, keys already present, and excluded forks; add the rest. -/
def nonPinnedStep (opt : DiscoverOptions) (m : RepoMap) (r : RepoGraphQL) : RepoMap :=
  if r.nameWithOwner == "" then m
  else if (assocGet m r.nameWithOwner).isSome then m
  else if opt.excludeForks && r.isFork then m
  else assocSet m r.nameWithOwner (repoGraphQLToTarget r false)

/-- The non-pinned loop of `DiscoverUserRepos`. -/
def nonPinnedPhase (opt : DiscoverOptions) (m : RepoMap)
    (nonPinned : List RepoGraphQL) : RepoMap :=
  if opt.includeNonPinned then nonPinned.foldl (nonPinnedStep opt) m else m

/-- The first output loop: walk `pinnedOrder`, appending `repoMap[key]`
(the zero value when absent) and deleting the key. -/
def pinnedCollect : List String → RepoMap → List RepoTarget × RepoMap
  | [], m => ([], m)
  | k :: ks, m =>
    let v := (assocGet m k).getD goZeroTarget
    let rest := pinnedCollect ks (assocDelete m k)
    (v :: rest.1, rest.2)

/-- The descending-star order of the `slices.SortFunc` call
(comparator `b.Stars - a.Stars`). -/
def starOrder (a b : RepoTarget) : Prop := b.stars ≤ a.stars

instance : DecidableRel starOrder := fun a b => inferInstanceAs (Decidable (b.stars ≤ a.stars))

instance : IsTotal RepoTarget starOrder := ⟨fun a b => le_total b.stars a.stars⟩

instance : IsTrans RepoTarget starOrder := ⟨fun _ _ _ h1 h2 => le_trans h2 h1⟩

/-- Deterministic witness of the unstable `slices.SortFunc` sort. -/
def starSortDesc (l : List RepoTarget) : List RepoTarget :=
  List.insertionSort starOrder l

/-- The final truncation: `targets[:limit]` when the limit is positive and
exceeded. -/
def limitTruncate (limit : Int) (l : List RepoTarget) : List RepoTarget :=
  if 0 < limit ∧ limit < (l.length : Int) then l.take limit.toNat else l

/-- Embedding of the merge/rank core of `DiscoverUserRepos` (github.go). -/
def discoverMerge (pinned nonPinned : List RepoGraphQL) (opt : DiscoverOptions) :
    List RepoTarget :=
  let pp := pinnedPhase opt pinned
  let m2 := nonPinnedPhase opt pp.1 nonPinned
  let coll := pinnedCollect pp.2 m2
  let remaining := coll.2.map (fun e => e.2)
  limitTruncate opt.limit (coll.1 ++ starSortDesc remaining)

/-! Declarative restatement of the discovery contract, following the spec's
words: pinned repositories first in query order (respecting excludeForks),
then non-pinned repositories not already present (deduplicated by
owner/name), sorted descending by star count, truncated to the limit. -/

/-- The filter a pinned node must pass: a non-empty name and not an
excluded fork. -/
def pinnedKeep (opt : DiscoverOptions) (r : RepoGraphQL) : Bool :=
  !(r.nameWithOwner == "") && !(opt.excludeForks && r.isFork)

/-- The pinned nodes that survive the filters, in query order. -/
def pinnedSelected (opt : DiscoverOptions) (pinned : List RepoGraphQL) : List RepoGraphQL :=
  if opt.includePinned then pinned.filter (pinnedKeep opt) else []

def pinnedNames (opt : DiscoverOptions) (pinned : List RepoGraphQL) : List String :=
  (pinnedSelected opt pinned).map (fun r => r.nameWithOwner)

def pinnedTargets (opt : DiscoverOptions) (pinned : List RepoGraphQL) : List RepoTarget :=
  (pinnedSelected opt pinned).map (fun r => repoGraphQLToTarget r true)

/-- The new (key, target) pairs contributed by the non-pinned nodes, given
the set of names already seen: empty names, seen names and excluded forks
are skipped, and each accepted node's name becomes seen. -/
def nonPinnedNew (opt : DiscoverOptions) : List String → List RepoGraphQL →
    List (String × RepoTarget)
  | _, [] => []
  | seen, r :: rest =>
    if r.nameWithOwner == "" then nonPinnedNew opt seen rest
    else if r.nameWithOwner ∈ seen then nonPinnedNew opt seen rest
    else if opt.excludeForks && r.isFork then nonPinnedNew opt seen rest
    else (r.nameWithOwner, repoGraphQLToTarget r false) ::
      nonPinnedNew opt (seen ++ [r.nameWithOwner]) rest

/-- The spec's description of discovery as one expression. -/
def discoverSpec (pinned nonPinned : List RepoGraphQL) (opt : DiscoverOptions) :
    List RepoTarget :=
  let fresh := if opt.includeNonPinned then
    (nonPinnedNew opt (pinnedNames opt pinned) nonPinned).map (fun e => e.2) else []
  limitTruncate opt.limit (pinnedTargets opt pinned ++ starSortDesc fresh)

/-! ## Theorems -/

/-- Claim C2: the spec demands that a failed commit-SHA resolution only
degrades the repository's result, but `evaluateRepo` immediately formats
`sha[:7]` with the zero-value empty SHA returned on error, a slice out of
bounds that panics and aborts the whole process. -/
theorem evaluateRepoShaStage_panics_on_error :
    evaluateRepoShaStage (Except.error "ref lookup failed") = none := by
  decide

/-- Claim C3: `scorePath` misses hard excludes the spec promises.  A path
whose first component is `vendor` does not contain the substring
"/vendor/", so "vendor/x.go" scores 60 instead of 0; and the
generated/docs rule fires before the binary-extension rule, so
"docs/diagram.png" scores 1 instead of 0. -/
theorem scorePath_toplevel_vendor_bug :
    scorePath "vendor/x.go" = 60 ∧ scorePath "docs/diagram.png" = 1 := by
  decide

/-- Claim C8: `readCache` returns a miss (not an error) on an absent path,
a miss on a stale entry regardless of its content, a hit exactly on a
present, fresh, deserializable entry, and hits only under those
conditions. -/
theorem readCache_ttl_spec {α : Type} (fs : FileSys) (now : Int) (path : String)
    (ttl : Int) (dec : String → Option α) :
    (fs path = none → readCache fs now path ttl dec = CacheReadResult.miss) ∧
    (∀ e, fs path = some e → ttl < now - e.modTime →
      readCache fs now path ttl dec = CacheReadResult.miss) ∧
    (∀ e v, fs path = some e → now - e.modTime ≤ ttl → dec e.content = some v →
      readCache fs now path ttl dec = CacheReadResult.hit v) ∧
    (∀ v, readCache fs now path ttl dec = CacheReadResult.hit v →
      ∃ e, fs path = some e ∧ now - e.modTime ≤ ttl ∧ dec e.content = some v) := by
  refine ⟨?_, ?_, ?_, ?_⟩
  · intro h; simp only [readCache, h]
  · intro e h hstale; simp only [readCache, h]; rw [if_pos hstale]
  · intro e v h hfresh hdec
    simp only [readCache, h]
    rw [if_neg (by omega), hdec]
  · intro v hhit
    simp only [readCache] at hhit
    cases hfs : fs path with
    | none =>
      simp only [hfs] at hhit
      exact absurd hhit (by simp)
    | some e =>
      simp only [hfs] at hhit
      by_cases hstale : ttl < now - e.modTime
      · rw [if_pos hstale] at hhit; exact absurd hhit (by simp)
      · rw [if_neg hstale] at hhit
        cases hdec : dec e.content with
        | none => rw [hdec] at hhit; exact absurd hhit (by simp)
        | some w =>
          rw [hdec] at hhit
          refine ⟨e, rfl, by omega, ?_⟩
          cases hhit
          exact hdec

/-- Witness for C8 at a concrete stale entry: the file is present and
well-formed but 100 time units old with a TTL of 50, so the read misses. -/
theorem readCache_ttl_spec_witness :
    readCache (fun p => if p = "repos-x.json" then some ⟨0, "cached"⟩ else none)
      100 "repos-x.json" 50 (fun s => some s) = CacheReadResult.miss := by
  exact (readCache_ttl_spec _ 100 "repos-x.json" 50 _).2.1 ⟨0, "cached"⟩ (by decide)
    (by decide)

/-- Claim C9: reading immediately after a successful write of the same key,
with any non-negative TTL, hits and returns exactly the written value
(given that deserialization inverts serialization, the contract of
`json.Marshal`/`json.Unmarshal` on serializable values). -/
theorem cache_roundtrip {α : Type} (fs : FileSys) (now : Int) (path : String)
    (ttl : Int) (enc : α → String) (dec : String → Option α) (v : α)
    (hrt : dec (enc v) = some v) (httl : 0 ≤ ttl) :
    readCache (writeCache fs now path enc v) now path ttl dec = CacheReadResult.hit v := by
  have hw : writeCache fs now path enc v path = some ⟨now, enc v⟩ := by
    unfold writeCache; rw [if_pos rfl]
  simp only [readCache, hw]
  rw [if_neg (by omega), hrt]

/-- Witness for C9: write then read of a concrete value hits with the same
content. -/
theorem cache_roundtrip_witness :
    readCache (writeCache (fun _ => none) 7 "alice/repo/sha/f.cache" id "package main")
      7 "alice/repo/sha/f.cache" 3600 some = CacheReadResult.hit "package main" :=
  cache_roundtrip (fun _ => none) 7 "alice/repo/sha/f.cache" 3600 id some
    "package main" rfl (by decide)

/-- Claim C7: both variant decoders try the bare-string form first — every
JSON string decodes to a value whose Point is that string, with Severity
defaulted to "Low" for `ArchConsideration` — and fall back to the object
form, where the point/justification/severity fields are taken as given. -/
theorem archDecode_string_first :
    (∀ s, archConsiderationDecode (JVal.jstr s) = Except.ok ⟨s, "", "Low"⟩) ∧
    (∀ s, archStrengthDecode (JVal.jstr s) = Except.ok ⟨s, ""⟩) ∧
    (∀ fields p j sv,
      jLookupLast fields "point" = some (JVal.jstr p) →
      jLookupLast fields "justification" = some (JVal.jstr j) →
      jLookupLast fields "severity" = some (JVal.jstr sv) →
      archConsiderationDecode (JVal.jobj fields) = Except.ok ⟨p, j, sv⟩) ∧
    (∀ fields p j,
      jLookupLast fields "point" = some (JVal.jstr p) →
      jLookupLast fields "justification" = some (JVal.jstr j) →
      archStrengthDecode (JVal.jobj fields) = Except.ok ⟨p, j⟩) := by
  refine ⟨fun s => rfl, fun s => rfl, ?_, ?_⟩
  · intro fields p j sv hp hj hsv
    simp only [archConsiderationDecode, decodeStringField, hp, hj, hsv]
  · intro fields p j hp hj
    simp only [archStrengthDecode, decodeStringField, hp, hj]

/-- The retry loop makes at most as many SDK calls as it has attempts
left. -/
theorem evalOneFrom_calls_le (oracle : Nat → LLMResp) (parse : String → Bool) :
    ∀ (r a : Nat) (msg : String), (evalOneFrom oracle parse r a msg).calls ≤ r := by
  intro r
  induction r with
  | zero => intro a msg; exact Nat.le_refl 0
  | succ r ih =>
    intro a msg
    cases h : oracle a with
    | terr m =>
      have := ih (a + 1) m
      simp only [evalOneFrom, h]
      omega
    | resp choices =>
      cases choices with
      | nil => simp [evalOneFrom, h]
      | cons txt rest =>
        simp only [evalOneFrom, h]
        by_cases hp : parse txt = true
        · simp [hp]
        · simp only [hp, Bool.false_eq_true, if_false]
          cases hx : extractJSON txt with
          | none => simp [hx]
          | some js => by_cases hj : parse js = true <;> simp [hx, hj]

/-- Claim C6: each LLM call makes at most 3 attempts; when all 3 attempts
fail at the transport level the call returns the last transport error
after sleeping 300, 600 and 900 ms (backoff 300 ms × attempt number,
applied only after transport failures); a successful response with zero
choices fails immediately with no retry; and on a successful response
whose text does not parse, the brace-delimited substring produced by
`extractJSON` is parsed as a fallback, the call failing if extraction or
the second parse fails. -/
theorem evalOne_retry_spec (oracle : Nat → LLMResp) (parse : String → Bool) :
    (evalOne oracle parse).calls ≤ 3 ∧
    ((∀ j, j < 3 → ∃ m, oracle j = LLMResp.terr m) →
      ∃ m2, oracle 2 = LLMResp.terr m2 ∧
        evalOne oracle parse = ⟨EvalOutcome.transport m2, [300, 600, 900], 3⟩) ∧
    (∀ k, k < 3 → (∀ j, j < k → ∃ m, oracle j = LLMResp.terr m) →
      (oracle k = LLMResp.resp [] →
        evalOne oracle parse = ⟨EvalOutcome.emptyCompletion,
          (List.range k).map (fun j => 300 * (j + 1)), k + 1⟩) ∧
      (∀ txt rest, oracle k = LLMResp.resp (txt :: rest) →
        (parse txt = true →
          evalOne oracle parse = ⟨EvalOutcome.ok,
            (List.range k).map (fun j => 300 * (j + 1)), k + 1⟩) ∧
        (parse txt = false → extractJSON txt = none →
          evalOne oracle parse = ⟨EvalOutcome.parseFail,
            (List.range k).map (fun j => 300 * (j + 1)), k + 1⟩) ∧
        (∀ js, parse txt = false → extractJSON txt = some js → parse js = true →
          evalOne oracle parse = ⟨EvalOutcome.ok,
            (List.range k).map (fun j => 300 * (j + 1)), k + 1⟩) ∧
        (∀ js, parse txt = false → extractJSON txt = some js → parse js = false →
          evalOne oracle parse = ⟨EvalOutcome.parseFail2,
            (List.range k).map (fun j => 300 * (j + 1)), k + 1⟩))) := by
  refine ⟨evalOneFrom_calls_le oracle parse 3 0 "", ?_, ?_⟩
  · intro hall
    obtain ⟨m0, h0⟩ := hall 0 (by omega)
    obtain ⟨m1, h1⟩ := hall 1 (by omega)
    obtain ⟨m2, h2⟩ := hall 2 (by omega)
    exact ⟨m2, h2, by simp [evalOne, evalOneFrom, h0, h1, h2]⟩
  · intro k hk hterr
    interval_cases k
    · refine ⟨fun h0 => by simp [evalOne, evalOneFrom, h0], ?_⟩
      intro txt rest h0
      refine ⟨fun hp => by simp [evalOne, evalOneFrom, h0, hp], ?_, ?_, ?_⟩
      · intro hp hx; simp [evalOne, evalOneFrom, h0, hp, hx]
      · intro js hp hx hj; simp [evalOne, evalOneFrom, h0, hp, hx, hj]
      · intro js hp hx hj; simp [evalOne, evalOneFrom, h0, hp, hx, hj]
    · obtain ⟨m0, h0⟩ := hterr 0 (by omega)
      refine ⟨fun h1 => by simp [evalOne, evalOneFrom, h0, h1, List.range_succ], ?_⟩
      intro txt rest h1
      refine ⟨fun hp => by simp [evalOne, evalOneFrom, h0, h1, hp, List.range_succ],
        ?_, ?_, ?_⟩
      · intro hp hx; simp [evalOne, evalOneFrom, h0, h1, hp, hx, List.range_succ]
      · intro js hp hx hj
        simp [evalOne, evalOneFrom, h0, h1, hp, hx, hj, List.range_succ]
      · intro js hp hx hj
        simp [evalOne, evalOneFrom, h0, h1, hp, hx, hj, List.range_succ]
    · obtain ⟨m0, h0⟩ := hterr 0 (by omega)
      obtain ⟨m1, h1⟩ := hterr 1 (by omega)
      refine ⟨fun h2 => by simp [evalOne, evalOneFrom, h0, h1, h2, List.range_succ], ?_⟩
      intro txt rest h2
      refine ⟨fun hp => by simp [evalOne, evalOneFrom, h0, h1, h2, hp, List.range_succ],
        ?_, ?_, ?_⟩
      · intro hp hx
        simp [evalOne, evalOneFrom, h0, h1, h2, hp, hx, List.range_succ]
      · intro js hp hx hj
        simp [evalOne, evalOneFrom, h0, h1, h2, hp, hx, hj, List.range_succ]
      · intro js hp hx hj
        simp [evalOne, evalOneFrom, h0, h1, h2, hp, hx, hj, List.range_succ]

/-- The concrete transport behavior for the C6 witness: the first attempt
fails at the transport level, the second returns one choice whose text
wraps JSON in prose. -/
def w6oracle : Nat → LLMResp :=
  fun j => if j = 0 then LLMResp.terr "timeout" else LLMResp.resp ["note: xx{j}yy"]

/-- The concrete parse acceptor for the C6 witness: only the exact
brace-delimited payload parses. -/
def w6parse : String → Bool := fun s => s == "{j}"

/-- Witness for C6: one transport failure (sleeping 300 ms), then a
successful response whose text only parses after `extractJSON`
stripping, giving a success after exactly 2 calls. -/
theorem evalOne_retry_witness :
    evalOne w6oracle w6parse = ⟨EvalOutcome.ok, [300], 2⟩ := by
  have h := (evalOne_retry_spec w6oracle w6parse).2.2 1 (by omega)
    (fun j hj => ⟨"timeout", by interval_cases j; rfl⟩)
  have h2 := (h.2 "note: xx{j}yy" [] rfl).2.2.1 "{j}" (by decide) (by decide) (by decide)
  rw [h2]
  simp [List.range_succ]

/-- The aggregation fold of `evaluateRepo` computes the sum of per-chunk
contributions and the sum of weights over the chunks with non-zero total. -/
theorem scoreAccum_foldl (prs : List (ChunkScore × String)) :
    ∀ a b : ℚ, prs.foldl scoreAccum (a, b) = (a + weightedNum prs, b + weightSum prs) := by
  induction prs with
  | nil => intro a b; simp [weightedNum, weightSum, effChunks]
  | cons hd tl ih =>
    intro a b
    rw [List.foldl_cons]
    by_cases h : chunkTotal hd.1 = 0
    · have hstep : scoreAccum (a, b) hd = (a, b) := by unfold scoreAccum; rw [if_pos h]
      have heff : effChunks (hd :: tl) = effChunks tl := by
        unfold effChunks; rw [List.filter_cons]; simp [h]
      rw [hstep, ih, weightedNum, weightedNum, weightSum, weightSum, heff]
    · have hstep : scoreAccum (a, b) hd =
          (a + ((chunkTotal hd.1 : ℚ) / 30) * chunkWeight hd.2, b + chunkWeight hd.2) := by
        unfold scoreAccum; rw [if_neg h]
      have heff : effChunks (hd :: tl) = hd :: effChunks tl := by
        unfold effChunks; rw [List.filter_cons]; simp [h]
      rw [hstep, ih, weightedNum, weightedNum, weightSum, weightSum, heff]
      simp only [List.map_cons, List.sum_cons, Prod.mk.injEq]
      exact ⟨by ring, by ring⟩

/-- Claim C1, amended: the aggregated repository score equals
clamp(trunc(weighted-average-fraction × 100), 0, 100) — Go's `int(...)`
conversion truncates toward zero, it does not round — with 0 when no
chunk carries a signal. -/
theorem repoScore_weighted_avg_trunc (prs : List (ChunkScore × String)) :
    repoScore prs =
      if 0 < weightSum prs then
        clamp (goTrunc (weightedNum prs / weightSum prs * 100)) 0 100
      else 0 := by
  unfold repoScore
  rw [scoreAccum_foldl prs 0 0]
  simp [zero_add]

/-- The concrete two-chunk scenario of the claim: totals 18 and 24 at
weights 1.0 and 1.2. -/
def cexChunks : List (ChunkScore × String) :=
  [(⟨3, 3, 3, 3, 3, 3⟩, "a.go"), (⟨4, 4, 4, 4, 4, 4⟩, "cmd/main.go")]

/-- Claim C1 fails as stated: on the claim's own example the code produces
70, not the rounded value 71, because the weighted average 70.909...
is truncated by `int(...)`. -/
theorem repoScore_example_counterexample :
    repoScore cexChunks = 70 ∧ repoScore cexChunks ≠ 71 := by
  have hw1 : chunkWeight "a.go" = 1 := by
    have h1 : goContains (goToLower "a.go") "test" = false := by decide
    have h2 : (goStartsWith (goToLower "a.go") "cmd/" ||
        goContains (goToLower "a.go") "/internal/") = false := by decide
    simp [chunkWeight, h1, h2]
  have hw2 : chunkWeight "cmd/main.go" = 6/5 := by
    have h1 : goContains (goToLower "cmd/main.go") "test" = false := by decide
    have h2 : (goStartsWith (goToLower "cmd/main.go") "cmd/" ||
        goContains (goToLower "cmd/main.go") "/internal/") = true := by decide
    simp [chunkWeight, h1, h2]
    norm_num
  have hnum : weightedNum cexChunks = 39/25 := by
    norm_num [weightedNum, effChunks, cexChunks, chunkTotal, hw1, hw2, List.filter_cons]
  have hden : weightSum cexChunks = 11/5 := by
    norm_num [weightSum, effChunks, cexChunks, chunkTotal, hw1, hw2, List.filter_cons]
  have hfold := scoreAccum_foldl cexChunks 0 0
  have hq : weightedNum cexChunks / weightSum cexChunks * 100 = 780/11 := by
    rw [hnum, hden]; norm_num
  have htr : goTrunc (780/11 : ℚ) = 70 := by
    unfold goTrunc
    rw [if_pos (by norm_num)]
    norm_num [Int.floor_eq_iff]
  have hscore : repoScore cexChunks = 70 := by
    unfold repoScore
    rw [hfold]
    simp only [zero_add]
    rw [if_pos (by rw [hden]; norm_num), hq, htr]
    unfold clamp
    norm_num
  exact ⟨hscore, by omega⟩

/-- The output loop of `pickPaths` emits a prefix of the paths of its sorted
input. -/
theorem pickLoop_isTake (limit : Int) :
    ∀ (xs : List ScoredPath) (c : Int),
      ∃ nn, pickLoop limit xs c = (xs.map ScoredPath.path).take nn := by
  intro xs
  induction xs with
  | nil => intro c; exact ⟨0, rfl⟩
  | cons sp rest ih =>
    intro c
    unfold pickLoop
    by_cases hb : limit ≤ c + 1
    · exact ⟨1, by rw [if_pos hb]; rfl⟩
    · obtain ⟨nn, hnn⟩ := ih (c + 1)
      exact ⟨nn + 1, by rw [if_neg hb, hnn]; rfl⟩

/-- While the accumulated length is below the limit, the output loop adds at
most `limit - c` further paths. -/
theorem pickLoop_length (limit : Int) :
    ∀ (xs : List ScoredPath) (c : Int), c < limit →
      ((pickLoop limit xs c).length : Int) ≤ limit - c := by
  intro xs
  induction xs with
  | nil => intro c hc; simp [pickLoop]; omega
  | cons sp rest ih =>
    intro c hc
    unfold pickLoop
    by_cases hb : limit ≤ c + 1
    · rw [if_pos hb]; simp; omega
    · rw [if_neg hb]
      have := ih (c + 1) (by omega)
      simp only [List.length_cons]
      push_cast
      omega

/-- Claim C4, amended to chunk counts of at least 1: `pickPaths` returns at
most `n` paths, each a member of the input tree with a strictly positive
score, in descending score order. -/
theorem pickPaths_spec (entries : List String) (n : Int) (hn : 1 ≤ n) :
    ((pickPaths entries n).length : Int) ≤ n ∧
    (∀ p ∈ pickPaths entries n, p ∈ entries ∧ 0 < scorePath p) ∧
    List.Pairwise (fun p q => scorePath q ≤ scorePath p) (pickPaths entries n) := by
  have hdef : pickPaths entries n = pickLoop n
      (List.insertionSort spOrder ((entries.map (fun p => ScoredPath.mk p (scorePath p))).filter
        (fun sp => decide (0 < sp.score)))) 0 := rfl
  set sorted := List.insertionSort spOrder
    ((entries.map (fun p => ScoredPath.mk p (scorePath p))).filter
      (fun sp => decide (0 < sp.score))) with hsorted
  have hmem : ∀ sp ∈ sorted, sp.path ∈ entries ∧ sp.score = scorePath sp.path ∧
      0 < sp.score := by
    intro sp hsp
    have hsp2 := (List.Perm.mem_iff (List.perm_insertionSort spOrder _)).mp hsp
    obtain ⟨hmm, hpos⟩ := List.mem_filter.mp hsp2
    obtain ⟨q, hq, hmk⟩ := List.mem_map.mp hmm
    subst hmk
    exact ⟨hq, rfl, by simpa using hpos⟩
  obtain ⟨nn, hnn⟩ := pickLoop_isTake n sorted 0
  refine ⟨?_, ?_, ?_⟩
  · rw [hdef]
    have := pickLoop_length n sorted 0 (by omega)
    omega
  · intro p hp
    rw [hdef, hnn] at hp
    have hp2 : p ∈ sorted.map ScoredPath.path :=
      List.Sublist.mem hp (List.take_sublist nn _)
    obtain ⟨sp, hsp, hpath⟩ := List.mem_map.mp hp2
    obtain ⟨hin, hscore, hpos⟩ := hmem sp hsp
    subst hpath
    exact ⟨hin, by omega⟩
  · rw [hdef, hnn]
    have hpw : List.Pairwise spOrder sorted := List.sorted_insertionSort spOrder _
    have hpw2 : List.Pairwise
        (fun a b : ScoredPath => scorePath b.path ≤ scorePath a.path) sorted := by
      refine List.Pairwise.imp_of_mem ?_ hpw
      intro a b ha hb hr
      have hsa := (hmem a ha).2.1
      have hsb := (hmem b hb).2.1
      unfold spOrder at hr
      omega
    exact List.Pairwise.sublist (List.take_sublist nn _)
      (List.pairwise_map.mpr hpw2)

/-- Witness for C4 at a concrete tree and chunk count 1. -/
theorem pickPaths_spec_witness :
    ((pickPaths ["internal/service.go", "README.md"] 1).length : Int) ≤ 1 ∧
    (∀ p ∈ pickPaths ["internal/service.go", "README.md"] 1,
      p ∈ ["internal/service.go", "README.md"] ∧ 0 < scorePath p) ∧
    List.Pairwise (fun p q => scorePath q ≤ scorePath p)
      (pickPaths ["internal/service.go", "README.md"] 1) :=
  pickPaths_spec ["internal/service.go", "README.md"] 1 (by decide)

/-- Claim C4 fails as stated for a chunk count of 0: the loop appends a path
before testing the bound, so one path is returned instead of none. -/
theorem pickPaths_zero_limit_counterexample :
    pickPaths ["a.go"] 0 = ["a.go"] ∧ ¬ ((pickPaths ["a.go"] 0).length : Int) ≤ 0 := by
  decide

/-- Invariant of the notes fold: every retained strength matches a positive
keyword, and every retained risk matches a negative keyword and no
positive one. -/
theorem classifyFold_inv (notes : List String) :
    ∀ acc : List String × List String,
      (∀ n ∈ acc.1, noteIsPositive (goToLower n) = true) →
      (∀ n ∈ acc.2, noteIsNegative (goToLower n) = true ∧
        noteIsPositive (goToLower n) = false) →
      (∀ n ∈ (notes.foldl classifyStep acc).1, noteIsPositive (goToLower n) = true) ∧
      (∀ n ∈ (notes.foldl classifyStep acc).2, noteIsNegative (goToLower n) = true ∧
        noteIsPositive (goToLower n) = false) := by
  induction notes with
  | nil => intro acc h1 h2; exact ⟨h1, h2⟩
  | cons hd tl ih =>
    intro acc h1 h2
    rw [List.foldl_cons]
    apply ih
    · intro n hn
      unfold classifyStep at hn
      by_cases hp : noteIsPositive (goToLower hd) = true
      · rw [if_pos hp] at hn
        by_cases hlen : acc.1.length < 3
        · rw [if_pos hlen] at hn
          rcases List.mem_append.mp hn with hcase | hcase
          · exact h1 n hcase
          · rw [List.mem_singleton.mp hcase]; exact hp
        · rw [if_neg hlen] at hn; exact h1 n hn
      · rw [if_neg hp] at hn
        by_cases hneg : noteIsNegative (goToLower hd) = true
        · rw [if_pos hneg] at hn; exact h1 n hn
        · rw [if_neg hneg] at hn; exact h1 n hn
    · intro n hn
      unfold classifyStep at hn
      by_cases hp : noteIsPositive (goToLower hd) = true
      · rw [if_pos hp] at hn; exact h2 n hn
      · rw [if_neg hp] at hn
        by_cases hneg : noteIsNegative (goToLower hd) = true
        · rw [if_pos hneg] at hn
          by_cases hlen : acc.2.length < 3
          · rw [if_pos hlen] at hn
            rcases List.mem_append.mp hn with hcase | hcase
            · exact h2 n hcase
            · rw [List.mem_singleton.mp hcase]
              exact ⟨hneg, Bool.eq_false_iff.mpr (fun hc => hp hc)⟩
          · rw [if_neg hlen] at hn; exact h2 n hn
        · rw [if_neg hneg] at hn; exact h2 n hn

/-- Claim C10: the notes `switch` tries the positive case first, so a note
matching a positive keyword is only ever appended to strengths (never to
risks, even when a negative keyword also occurs in it); a note matching a
negative keyword and no positive keyword is only ever appended to risks;
and across a whole run every retained strength/risk matches the
corresponding keyword class. -/
theorem classify_positive_precedence :
    (∀ (acc : List String × List String) (n : String),
      noteIsPositive (goToLower n) = true →
      classifyStep acc n = (if acc.1.length < 3 then acc.1 ++ [n] else acc.1, acc.2)) ∧
    (∀ (acc : List String × List String) (n : String),
      noteIsPositive (goToLower n) = false → noteIsNegative (goToLower n) = true →
      classifyStep acc n = (acc.1, if acc.2.length < 3 then acc.2 ++ [n] else acc.2)) ∧
    (∀ notes n, n ∈ (classifyNotes notes).1 → noteIsPositive (goToLower n) = true) ∧
    (∀ notes n, n ∈ (classifyNotes notes).2 → noteIsNegative (goToLower n) = true ∧
      noteIsPositive (goToLower n) = false) := by
  refine ⟨?_, ?_, ?_, ?_⟩
  · intro acc n hp; unfold classifyStep; rw [if_pos hp]
  · intro acc n hp hneg
    unfold classifyStep
    rw [if_neg (by rw [hp]; exact Bool.false_ne_true), if_pos hneg]
  · intro notes n hn
    exact (classifyFold_inv notes ([], []) (by simp) (by simp)).1 n hn
  · intro notes n hn
    exact (classifyFold_inv notes ([], []) (by simp) (by simp)).2 n hn

/-- Witness for C10: the note "Idiomatic handling of concurrency" matches
both the positive keyword "idiomatic" and the negative keyword
"concurrency", and the step appends it to strengths and leaves risks
untouched. -/
theorem classify_positive_precedence_witness :
    noteIsPositive (goToLower "Idiomatic handling of concurrency") = true ∧
    noteIsNegative (goToLower "Idiomatic handling of concurrency") = true ∧
    classifyStep ([], []) "Idiomatic handling of concurrency" =
      (["Idiomatic handling of concurrency"], []) :=
  ⟨by decide, by decide,
    (classify_positive_precedence.1 ([], []) "Idiomatic handling of concurrency"
      (by decide)).trans (by decide)⟩

/-- Witness for C7 at concrete inputs: a bare string decodes with severity
"Low", and an object with all three fields decodes them as given. -/
theorem archDecode_string_first_witness :
    archConsiderationDecode (JVal.jstr "tight coupling") =
      Except.ok ⟨"tight coupling", "", "Low"⟩ ∧
    archConsiderationDecode (JVal.jobj
      [("point", JVal.jstr "no tests"), ("justification", JVal.jstr "none found"),
       ("severity", JVal.jstr "High")]) =
      Except.ok ⟨"no tests", "none found", "High"⟩ :=
  ⟨archDecode_string_first.1 "tight coupling",
   archDecode_string_first.2.2.1 _ "no tests" "none found" "High" rfl rfl rfl⟩

/-- Writing a fresh key into the deduplication map appends a binding. -/
theorem assocSet_of_not_mem (m : RepoMap) (k : String) (v : RepoTarget)
    (h : k ∉ List.map Prod.fst m) : assocSet m k v = m ++ [(k, v)] := by
  induction m with
  | nil => rfl
  | cons e rest ih =>
    have hne : ¬(e.1 == k) = true := by
      simp only [List.map_cons, List.mem_cons] at h
      simp only [beq_iff_eq]
      intro hq
      exact h (Or.inl hq.symm)
    have hrest : k ∉ List.map Prod.fst rest := by
      simp only [List.map_cons, List.mem_cons] at h
      intro hq
      exact h (Or.inr hq)
    unfold assocSet
    rw [if_neg hne, ih hrest]
    rfl

/-- A key is found in the deduplication map exactly when it is among the
stored keys. -/
theorem assocGet_isSome_iff (m : RepoMap) (k : String) :
    (assocGet m k).isSome = true ↔ k ∈ List.map Prod.fst m := by
  induction m with
  | nil => simp [assocGet]
  | cons e rest ih =>
    by_cases he : e.1 = k
    · rw [assocGet, List.find?_cons_of_pos _ (by simp [he])]
      simp [he]
    · rw [assocGet, List.find?_cons_of_neg _ (by simp [he])]
      rw [assocGet] at ih
      simp only [List.map_cons, List.mem_cons]
      rw [ih]
      constructor
      · exact fun hm => Or.inr hm
      · rintro (hq | hm)
        · exact absurd hq.symm he
        · exact hm

/-- Deleting a key that is not stored leaves the map unchanged. -/
theorem assocDelete_of_not_mem (m : RepoMap) (k : String)
    (h : k ∉ List.map Prod.fst m) : assocDelete m k = m := by
  unfold assocDelete
  rw [List.filter_eq_self]
  intro e he
  simp only [Bool.not_eq_eq_eq_not, Bool.not_true, beq_eq_false_iff_ne]
  intro hq
  exact h (List.mem_map.mpr ⟨e, he, hq⟩)

/-- Running the pinned loop from an accumulator whose map stores exactly
the names seen so far extends both components by the surviving nodes,
provided no name repeats. -/
theorem pinnedFold_spec (opt : DiscoverOptions) (rs : List RepoGraphQL) :
    ∀ (m : RepoMap) (names : List String),
      List.map Prod.fst m = names →
      (names ++ (rs.filter (pinnedKeep opt)).map (fun r => r.nameWithOwner)).Nodup →
      rs.foldl (pinnedStep opt) (m, names) =
        (m ++ (rs.filter (pinnedKeep opt)).map
            (fun r => (r.nameWithOwner, repoGraphQLToTarget r true)),
         names ++ (rs.filter (pinnedKeep opt)).map (fun r => r.nameWithOwner)) := by
  induction rs with
  | nil => intro m names _ _; simp
  | cons r rest ih =>
    intro m names hkeys hnd
    rw [List.foldl_cons]
    by_cases h1 : (r.nameWithOwner == "") = true
    · have hkeep : pinnedKeep opt r = false := by simp [pinnedKeep, h1]
      have hstep : pinnedStep opt (m, names) r = (m, names) := by
        unfold pinnedStep; rw [if_pos h1]
      rw [hstep]
      rw [List.filter_cons, hkeep] at hnd ⊢
      simp only [Bool.false_eq_true, if_false] at hnd ⊢
      exact ih m names hkeys hnd
    · by_cases h2 : (opt.excludeForks && r.isFork) = true
      · have hkeep : pinnedKeep opt r = false := by simp [pinnedKeep, h2]
        have hstep : pinnedStep opt (m, names) r = (m, names) := by
          unfold pinnedStep; rw [if_neg h1, if_pos h2]
        rw [hstep]
        rw [List.filter_cons, hkeep] at hnd ⊢
        simp only [Bool.false_eq_true, if_false] at hnd ⊢
        exact ih m names hkeys hnd
      · have hkeep : pinnedKeep opt r = true := by simp [pinnedKeep, h1, h2]
        rw [List.filter_cons, hkeep] at hnd ⊢
        simp only [if_true] at hnd ⊢
        have hnotin : r.nameWithOwner ∉ names := by
          obtain ⟨-, -, hdisj⟩ := List.nodup_append.mp hnd
          intro hmem
          exact hdisj hmem (by simp)
        have hstep : pinnedStep opt (m, names) r =
            (m ++ [(r.nameWithOwner, repoGraphQLToTarget r true)],
             names ++ [r.nameWithOwner]) := by
          unfold pinnedStep
          rw [if_neg h1, if_neg h2, assocSet_of_not_mem m _ _ (hkeys ▸ hnotin)]
        rw [hstep]
        have hkeys2 : List.map Prod.fst
            (m ++ [(r.nameWithOwner, repoGraphQLToTarget r true)]) =
            names ++ [r.nameWithOwner] := by
          simp [hkeys]
        have hnd2 : ((names ++ [r.nameWithOwner]) ++
            (rest.filter (pinnedKeep opt)).map (fun r => r.nameWithOwner)).Nodup := by
          rw [List.append_assoc, List.singleton_append]
          exact hnd
        rw [ih _ _ hkeys2 hnd2]
        simp [List.append_assoc]

/-- The one-step equation of `nonPinnedNew` on a cons cell. -/
theorem nonPinnedNew_cons (opt : DiscoverOptions) (seen : List String)
    (r : RepoGraphQL) (rest : List RepoGraphQL) :
    nonPinnedNew opt seen (r :: rest) =
      if r.nameWithOwner == "" then nonPinnedNew opt seen rest
      else if r.nameWithOwner ∈ seen then nonPinnedNew opt seen rest
      else if opt.excludeForks && r.isFork then nonPinnedNew opt seen rest
      else (r.nameWithOwner, repoGraphQLToTarget r false) ::
        nonPinnedNew opt (seen ++ [r.nameWithOwner]) rest := rfl

/-- Running the non-pinned loop from map `m` appends exactly the new
bindings computed by `nonPinnedNew` from the names stored in `m`. -/
theorem nonPinnedFold_spec (opt : DiscoverOptions) (rs : List RepoGraphQL) :
    ∀ m : RepoMap,
      rs.foldl (nonPinnedStep opt) m = m ++ nonPinnedNew opt (List.map Prod.fst m) rs := by
  induction rs with
  | nil => intro m; simp [nonPinnedNew]
  | cons r rest ih =>
    intro m
    rw [List.foldl_cons]
    by_cases h1 : (r.nameWithOwner == "") = true
    · have hstep : nonPinnedStep opt m r = m := by
        unfold nonPinnedStep; rw [if_pos h1]
      rw [hstep, ih]
      congr 1
      rw [nonPinnedNew_cons, if_pos h1]
    · by_cases h2 : (assocGet m r.nameWithOwner).isSome = true
      · have hseen : r.nameWithOwner ∈ List.map Prod.fst m :=
          (assocGet_isSome_iff m _).mp h2
        have hstep : nonPinnedStep opt m r = m := by
          unfold nonPinnedStep; rw [if_neg h1, if_pos h2]
        rw [hstep, ih]
        congr 1
        rw [nonPinnedNew_cons, if_neg h1, if_pos hseen]
      · have hseen : r.nameWithOwner ∉ List.map Prod.fst m :=
          fun hmem => h2 ((assocGet_isSome_iff m _).mpr hmem)
        by_cases h3 : (opt.excludeForks && r.isFork) = true
        · have hstep : nonPinnedStep opt m r = m := by
            unfold nonPinnedStep; rw [if_neg h1, if_neg h2, if_pos h3]
          rw [hstep, ih]
          congr 1
          rw [nonPinnedNew_cons, if_neg h1, if_neg hseen, if_pos h3]
        · have hstep : nonPinnedStep opt m r =
              m ++ [(r.nameWithOwner, repoGraphQLToTarget r false)] := by
            unfold nonPinnedStep
            rw [if_neg h1, if_neg h2, if_neg h3, assocSet_of_not_mem m _ _ hseen]
          rw [hstep, ih]
          have hkeys2 : List.map Prod.fst
              (m ++ [(r.nameWithOwner, repoGraphQLToTarget r false)]) =
              List.map Prod.fst m ++ [r.nameWithOwner] := by simp
          rw [hkeys2]
          rw [nonPinnedNew_cons, if_neg h1, if_neg hseen, if_neg h3]
          simp [List.append_assoc]

/-- Every binding produced by `nonPinnedNew` has a key outside the seen
set it started from. -/
theorem nonPinnedNew_keys_not_seen (opt : DiscoverOptions) (rs : List RepoGraphQL) :
    ∀ (seen : List String) (e : String × RepoTarget),
      e ∈ nonPinnedNew opt seen rs → e.1 ∉ seen := by
  induction rs with
  | nil => intro seen e he; simp [nonPinnedNew] at he
  | cons r rest ih =>
    intro seen e he
    unfold nonPinnedNew at he
    by_cases h1 : (r.nameWithOwner == "") = true
    · rw [if_pos h1] at he; exact ih seen e he
    · rw [if_neg h1] at he
      by_cases h2 : r.nameWithOwner ∈ seen
      · rw [if_pos h2] at he; exact ih seen e he
      · rw [if_neg h2] at he
        by_cases h3 : (opt.excludeForks && r.isFork) = true
        · rw [if_pos h3] at he; exact ih seen e he
        · rw [if_neg h3] at he
          rcases List.mem_cons.mp he with hhd | htl
          · subst hhd; exact h2
          · have := ih (seen ++ [r.nameWithOwner]) e htl
            intro hmem
            exact this (List.mem_append.mpr (Or.inl hmem))

/-- Walking the pinned keys over the map collects exactly the pinned
targets in order and leaves exactly the non-pinned bindings, provided
the pinned keys are distinct and disjoint from the rest. -/
theorem pinnedCollect_spec (ps : RepoMap) :
    ∀ extras : RepoMap,
      (List.map Prod.fst ps).Nodup →
      (∀ e ∈ extras, e.1 ∉ List.map Prod.fst ps) →
      pinnedCollect (List.map Prod.fst ps) (ps ++ extras) =
        (List.map Prod.snd ps, extras) := by
  induction ps with
  | nil => intro extras _ _; rfl
  | cons e ps ih =>
    intro extras hnd hex
    obtain ⟨k, v⟩ := e
    have hk1 : k ∉ List.map Prod.fst ps := by
      simp only [List.map_cons, List.nodup_cons] at hnd
      exact hnd.1
    have hk2 : k ∉ List.map Prod.fst extras := by
      intro hmem
      obtain ⟨e', he', hq⟩ := List.mem_map.mp hmem
      have := hex e' he'
      simp only [List.map_cons, List.mem_cons] at this
      exact this (Or.inl hq)
    have hget : assocGet (((k, v) :: ps) ++ extras) k = some v := by
      rw [List.cons_append, assocGet, List.find?_cons_of_pos _ (by simp)]
      rfl
    have hdel : assocDelete (((k, v) :: ps) ++ extras) k = ps ++ extras := by
      rw [List.cons_append]
      unfold assocDelete
      rw [List.filter_cons]
      simp only [beq_self_eq_true, Bool.not_true, Bool.false_eq_true, if_false]
      exact assocDelete_of_not_mem (ps ++ extras) k
        (by
          intro hmem
          rw [List.map_append, List.mem_append] at hmem
          rcases hmem with hmem | hmem
          · exact hk1 hmem
          · exact hk2 hmem)
    simp only [List.map_cons]
    unfold pinnedCollect
    rw [hget, hdel]
    have hex2 : ∀ e' ∈ extras, e'.1 ∉ List.map Prod.fst ps := by
      intro e' he' hmem
      have := hex e' he'
      simp only [List.map_cons, List.mem_cons] at this
      exact this (Or.inr hmem)
    rw [ih extras (by simp only [List.map_cons, List.nodup_cons] at hnd; exact hnd.2) hex2]
    rfl

/-- Claim C5: discovery orders pinned repositories first in query order,
then appends the non-pinned repositories not already present
(deduplicated by owner/name) sorted descending by star count, and
truncates to the limit when positive — provided the surviving pinned
names are distinct, which the dedup map presupposes. -/
theorem discoverMerge_eq_spec (pinned nonPinned : List RepoGraphQL)
    (opt : DiscoverOptions) (hnd : (pinnedNames opt pinned).Nodup) :
    discoverMerge pinned nonPinned opt = discoverSpec pinned nonPinned opt := by
  by_cases hip : opt.includePinned
  · have hpnames : pinnedNames opt pinned =
        (pinned.filter (pinnedKeep opt)).map (fun r => r.nameWithOwner) := by
      simp [pinnedNames, pinnedSelected, hip]
    have hkeys : List.map Prod.fst ((pinned.filter (pinnedKeep opt)).map
        (fun r => (r.nameWithOwner, repoGraphQLToTarget r true))) =
        (pinned.filter (pinnedKeep opt)).map (fun r => r.nameWithOwner) := by
      rw [List.map_map]; rfl
    have hvals : List.map Prod.snd ((pinned.filter (pinnedKeep opt)).map
        (fun r => (r.nameWithOwner, repoGraphQLToTarget r true))) =
        pinnedTargets opt pinned := by
      rw [List.map_map]
      simp [pinnedTargets, pinnedSelected, hip]
    have hndN : ((pinned.filter (pinnedKeep opt)).map
        (fun r => r.nameWithOwner)).Nodup := hpnames ▸ hnd
    have hpp : pinnedPhase opt pinned =
        ((pinned.filter (pinnedKeep opt)).map
          (fun r => (r.nameWithOwner, repoGraphQLToTarget r true)),
         (pinned.filter (pinnedKeep opt)).map (fun r => r.nameWithOwner)) := by
      unfold pinnedPhase
      rw [if_pos hip]
      have h0 := pinnedFold_spec opt pinned [] [] rfl (by simpa using hndN)
      simpa using h0
    by_cases hinp : opt.includeNonPinned
    · have hnp : nonPinnedPhase opt ((pinned.filter (pinnedKeep opt)).map
          (fun r => (r.nameWithOwner, repoGraphQLToTarget r true))) nonPinned =
          (pinned.filter (pinnedKeep opt)).map
            (fun r => (r.nameWithOwner, repoGraphQLToTarget r true)) ++
          nonPinnedNew opt ((pinned.filter (pinnedKeep opt)).map
            (fun r => r.nameWithOwner)) nonPinned := by
        unfold nonPinnedPhase
        rw [if_pos hinp, nonPinnedFold_spec opt nonPinned _, hkeys]
      have hcoll := pinnedCollect_spec
        ((pinned.filter (pinnedKeep opt)).map
          (fun r => (r.nameWithOwner, repoGraphQLToTarget r true)))
        (nonPinnedNew opt ((pinned.filter (pinnedKeep opt)).map
          (fun r => r.nameWithOwner)) nonPinned)
        (by rw [hkeys]; exact hndN)
        (by
          intro e he
          rw [hkeys]
          exact nonPinnedNew_keys_not_seen opt nonPinned _ e he)
      rw [hkeys] at hcoll
      unfold discoverMerge discoverSpec
      rw [hpp]
      simp only [hnp, hcoll, hvals, hpnames, hinp, if_true]
    · have hnp : nonPinnedPhase opt ((pinned.filter (pinnedKeep opt)).map
          (fun r => (r.nameWithOwner, repoGraphQLToTarget r true))) nonPinned =
          (pinned.filter (pinnedKeep opt)).map
            (fun r => (r.nameWithOwner, repoGraphQLToTarget r true)) := by
        unfold nonPinnedPhase
        rw [if_neg hinp]
      have hcoll := pinnedCollect_spec
        ((pinned.filter (pinnedKeep opt)).map
          (fun r => (r.nameWithOwner, repoGraphQLToTarget r true)))
        [] (by rw [hkeys]; exact hndN) (by intro e he; simp at he)
      rw [hkeys, List.append_nil] at hcoll
      unfold discoverMerge discoverSpec
      rw [hpp]
      simp only [hnp, hcoll, hvals, hpnames, hinp, if_false]
      simp [starSortDesc]
  · have hpnames : pinnedNames opt pinned = [] := by
      simp [pinnedNames, pinnedSelected, hip]
    have hpp : pinnedPhase opt pinned = ([], []) := by
      unfold pinnedPhase
      rw [if_neg hip]
    have htgt : pinnedTargets opt pinned = [] := by
      simp [pinnedTargets, pinnedSelected, hip]
    by_cases hinp : opt.includeNonPinned
    · have hnp : nonPinnedPhase opt [] nonPinned =
          nonPinnedNew opt [] nonPinned := by
        unfold nonPinnedPhase
        rw [if_pos hinp, nonPinnedFold_spec opt nonPinned []]
        rfl
      unfold discoverMerge discoverSpec
      rw [hpp]
      simp only [hnp, hpnames, htgt, hinp, if_true]
      rfl
    · have hnp : nonPinnedPhase opt [] nonPinned = [] := by
        unfold nonPinnedPhase
        rw [if_neg hinp]
      unfold discoverMerge discoverSpec
      rw [hpp]
      simp only [hnp, hpnames, htgt, hinp, if_false]
      simp [starSortDesc]
      rfl

/-- The pinned nodes of the claim's discovery scenario. -/
def w5A : RepoGraphQL := RepoGraphQL.mk "alice/A" "main" 5 false "alice" "A" "Go"

def w5B : RepoGraphQL := RepoGraphQL.mk "alice/B" "main" 1 false "alice" "B" "Go"

def w5C : RepoGraphQL := RepoGraphQL.mk "alice/C" "main" 50 false "alice" "C" "Go"

/-- Witness for C5 at the claim's scenario: pinned=[A(5), B(1)],
nonPinned=[B(1), C(50)], limit=2, excludeForks=false yields [A, B]. -/
theorem discoverMerge_scenario_witness :
    discoverMerge [w5A, w5B] [w5B, w5C] (DiscoverOptions.mk 2 true true false) =
      [repoGraphQLToTarget w5A true, repoGraphQLToTarget w5B true] :=
  (discoverMerge_eq_spec [w5A, w5B] [w5B, w5C]
    (DiscoverOptions.mk 2 true true false) (by decide)).trans (by decide)

end GHP
